import Mathlib

/-!
Shallow embedding of the OpenAPI-to-wiki synchronization script
(`scripts/openapi2confluence.py`): the partitioner that splits a
specification by its `/api/v3` path segment
(`split_openapi_by_path_segment`), the page create-or-overwrite logic
against a modelled remote wiki, the attachment upload with its
delete-then-retry fallback, stale-page pruning, and the two-pass
page-plus-attachment orchestration.

String operations are carried out on `List Char` primitives so that every
definition reduces structurally; the correspondence with the Python string
operation being modelled is noted at each definition.  The remote wiki and
its attachment endpoints are external to the repository and are modelled
from the specification's interface description (search by space and title,
optionally ancestor-scoped; create, update with version bump, list direct
children, delete; attachment upload, lookup by filename, delete).
-/

/- ### Character-list string primitives -/

/-- Characterwise test that `pat` is an initial run of `s`
(Python `s.startswith(pat)` where `pat` is the first argument). -/
def listLead : List Char → List Char → Bool
  | [], _ => true
  | _ :: _, [] => false
  | p :: ps, c :: cs => p == c && listLead ps cs

/-- Occurrence of `pat` somewhere inside `s` (Python `pat in s`). -/
def hasSubList (pat : List Char) : List Char → Bool
  | [] => pat.isEmpty
  | c :: cs => listLead pat (c :: cs) || hasSubList pat cs

/-- Python `pat in s` on strings. -/
def containsSub (s pat : String) : Bool := hasSubList pat.toList s.toList

/-- `os.path.basename` on POSIX: everything after the last `/`. -/
def basename (p : String) : String :=
  String.mk ((p.toList.reverse.takeWhile (fun c => c != '/')).reverse)

/- ### Insertion-ordered dictionaries as association lists -/

/-- Lookup in an insertion-ordered dictionary (Python `d.get(k)`). -/
def getA {α : Type} (k : String) : List (String × α) → Option α
  | [] => none
  | (k', v) :: rest => if k' == k then some v else getA k rest

/-- Key membership (Python `k in d`). -/
def memA {α : Type} (k : String) (l : List (String × α)) : Bool :=
  (getA k l).isSome

/-- Assignment `d[k] = v` on an insertion-ordered dictionary: overwrite in
place when the key exists, append at the end otherwise. -/
def setA {α : Type} (k : String) (v : α) : List (String × α) → List (String × α)
  | [] => [(k, v)]
  | (k', v') :: rest => if k' == k then (k, v) :: rest else (k', v') :: setA k v rest

/-- The compound step `if k not in d: d[k] = dflt` followed by an in-place
mutation of `d[k]` by `f`. -/
def modifyA {α : Type} (k : String) (dflt : α) (f : α → α) :
    List (String × α) → List (String × α)
  | [] => [(k, f dflt)]
  | (k', v') :: rest =>
    if k' == k then (k', f v') :: rest else (k', v') :: modifyA k dflt f rest

/- ### The partitioner (`split_openapi_by_path_segment`) -/

/-- Operation objects of the specification are opaque payloads to the
splitter (they are only deep-copied, never inspected), so they are modelled
by bare identifiers. -/
abbrev Op := Nat

/-- A path item: the mapping from keys (HTTP method names, or other keys
such as `parameters`) to operation objects, in document order. -/
abbrev PathItem := List (String × Op)

/-- The `paths` mapping of a specification document, in document order. -/
abbrev PathsDict := List (String × PathItem)

/-- The partial documents built by the splitter, keyed by group name.  Each
partial document is represented by its `paths` mapping; the `openapi` and
`info` fields copied from the master carry no grouping information. -/
abbrev GroupDocs := List (String × PathsDict)

/-- The fixed HTTP method list of `split_openapi_by_path_segment`. -/
def httpMethods : List String :=
  ["get", "put", "post", "delete", "options", "head", "patch", "trace"]

/-- The structural path root the splitter groups by. -/
def apiRoot : String := "/api/v3"

/-- Python `path_key.startswith("/api/v3")`. -/
def matchesRoot (pk : String) : Bool := listLead apiRoot.toList pk.toList

/-- Python `path_key[len("/api/v3"):].lstrip("/")`, as characters. -/
def remainderOf (pk : String) : List Char :=
  (pk.toList.drop apiRoot.toList.length).dropWhile (fun c => c == '/')

/-- Python `remainder.split("/")[0]`: for the one-character separator `/`
the first piece of the split is the run of characters before the first
separator occurrence. -/
def firstSegment (pk : String) : String :=
  String.mk ((remainderOf pk).takeWhile (fun c => c != '/'))

/-- One iteration of the inner loop of `split_openapi_by_path_segment`:
skip keys outside the HTTP method list; otherwise create the group's
partial document lazily, create the path entry lazily, and store the
operation under its method. -/
def processMethod (docs : GroupDocs) (g pk : String) (mop : String × Op) : GroupDocs :=
  if httpMethods.contains mop.1 then
    modifyA g [] (fun paths => modifyA pk [] (fun item => setA mop.1 mop.2 item) paths) docs
  else docs

/-- One iteration of the outer loop of `split_openapi_by_path_segment`:
skip path keys outside `/api/v3`, skip an empty stripped remainder,
otherwise file every method of the path item under the group named by the
first remaining path segment. -/
def processPath (docs : GroupDocs) (e : String × PathItem) : GroupDocs :=
  if matchesRoot e.1 then
    if (remainderOf e.1).isEmpty then docs
    else e.2.foldl (fun d mop => processMethod d (firstSegment e.1) e.1 mop) docs
  else docs

/-- `split_openapi_by_path_segment`, restricted to the in-memory grouping
it performs.  One file is then written per key of the result
(`result_files` has exactly the keys of `partial_docs`), so a group is
"written" exactly when it is a key of this mapping. -/
def split_openapi_by_path_segment (paths : PathsDict) : GroupDocs :=
  paths.foldl processPath []

/-- Whether path `pk` occurs in the partial document of group `g`. -/
def inPartial (docs : GroupDocs) (g pk : String) : Bool :=
  match getA g docs with
  | none => false
  | some paths => memA pk paths

/-- The operation stored for `(group, path, method)` in the split result. -/
def opAt (docs : GroupDocs) (g pk m : String) : Option Op :=
  (getA g docs).bind (fun paths => (getA pk paths).bind (fun item => getA m item))

/-- Whether the master entry `(pk, item)` contributes at least one
operation to group `g`. -/
def contributes (pk : String) (item : PathItem) (g : String) : Bool :=
  matchesRoot pk && !(remainderOf pk).isEmpty && firstSegment pk == g &&
    item.any (fun mop => httpMethods.contains mop.1)

/- ### The attachment synchronizer -/

/-- An HTTP response as the script observes it: status code and body text.
`requests.Response.ok` is `status < 400`; `raise_for_status` in the script
is modelled as failing exactly on a response that is not `ok`. -/
structure HttpResp where
  status : Nat
  text : String
deriving DecidableEq, Repr

def respOk (r : HttpResp) : Bool := r.status < 400

/-- The attachment-endpoint requests the script can issue, recorded as a
trace. -/
inductive AttReq where
  | postOverwrite (pageId : Nat)
  | findByName (pageId : Nat) (filename : String)
  | deleteAtt (attId : Nat)
  | postPlain (pageId : Nat)
deriving DecidableEq, Repr

/-- A simulated remote for the attachment endpoints, one fixed response per
endpoint the script can hit: the overwrite-mode POST, the find-by-filename
GET (with its result list of attachment ids), the attachment DELETE, and
the plain POST used by the retry. -/
structure AttachRemote where
  overwriteResp : HttpResp
  findResp : HttpResp
  findResults : List Nat
  deleteResp : HttpResp
  plainResp : HttpResp
deriving DecidableEq, Repr

/-- The specific duplicate-filename rejection message tested for. -/
def dupMsg : String := "Cannot add a new attachment with same file name"

/-- `find_attachment_id_by_filename`: GET the attachment listing filtered
by filename, fail on a bad response, else return the id of the first
result, if any.  Alongside the result, the list of issued requests. -/
def find_attachment_id_by_filename (rem : AttachRemote) (pageId : Nat) (filename : String) :
    Except HttpResp (Option Nat) × List AttReq :=
  if respOk rem.findResp then
    (Except.ok rem.findResults.head?, [AttReq.findByName pageId filename])
  else
    (Except.error rem.findResp, [AttReq.findByName pageId filename])

/-- `fallback_delete_existing_attachment`: look the attachment up by
filename; when found, DELETE it and fail on a bad delete response; when not
found, do nothing. -/
def fallback_delete_existing_attachment (rem : AttachRemote) (pageId : Nat) (filename : String) :
    Except HttpResp Unit × List AttReq :=
  match find_attachment_id_by_filename rem pageId filename with
  | (Except.error e, tr) => (Except.error e, tr)
  | (Except.ok none, tr) => (Except.ok (), tr)
  | (Except.ok (some attId), tr) =>
    if respOk rem.deleteResp then (Except.ok (), tr ++ [AttReq.deleteAtt attId])
    else (Except.error rem.deleteResp, tr ++ [AttReq.deleteAtt attId])

/-- `upload_attachment_with_overwrite`: try the overwrite-mode POST; on
success return the basename of the file; on the specific duplicate-filename
rejection (status 400 and the fixed message in the body) run the fallback
delete and re-POST without overwrite mode, failing if the retry fails; on
any other failure propagate the primary response. -/
def upload_attachment_with_overwrite (rem : AttachRemote) (pageId : Nat) (filePath : String) :
    Except HttpResp String × List AttReq :=
  let filename := basename filePath
  if respOk rem.overwriteResp then
    (Except.ok filename, [AttReq.postOverwrite pageId])
  else if rem.overwriteResp.status == 400 && containsSub rem.overwriteResp.text dupMsg then
    match fallback_delete_existing_attachment rem pageId filename with
    | (Except.error e, tr) => (Except.error e, AttReq.postOverwrite pageId :: tr)
    | (Except.ok _, tr) =>
      if respOk rem.plainResp then
        (Except.ok filename, (AttReq.postOverwrite pageId :: tr) ++ [AttReq.postPlain pageId])
      else
        (Except.error rem.plainResp, (AttReq.postOverwrite pageId :: tr) ++ [AttReq.postPlain pageId])
  else
    (Except.error rem.overwriteResp, [AttReq.postOverwrite pageId])

/- ### The remote wiki page store -/

/-- One remote page: identifier, title, space key, optional parent,
storage-format body, and version counter. -/
structure PageRec where
  id : Nat
  title : String
  space : String
  parent : Option Nat
  body : String
  version : Nat
deriving DecidableEq, Repr

/-- The remote wiki state: its pages in remote order, and the next
identifier it will assign to a created page. -/
structure Remote where
  pages : List PageRec
  nextId : Nat
deriving DecidableEq, Repr

/-- The parent map of a page list: page id to parent id. -/
abbrev ParentMap := List (Nat × Option Nat)

def pageParents (pages : List PageRec) : ParentMap :=
  pages.map (fun p => (p.id, p.parent))

/-- Transitive ancestor test over a parent map (spec glossary: ancestor
scoping matches the descendants of a page identifier).  Every entry of the
visited page id is removed from the map before following the parent
pointer, so a fuel equal to the map size is always sufficient. -/
def isDescAux : Nat → ParentMap → Nat → Nat → Bool
  | 0, _, _, _ => false
  | fuel + 1, pm, pid, anc =>
    match pm.find? (fun e => e.1 == pid) with
    | none => false
    | some e =>
      match e.2 with
      | none => false
      | some pp => pp == anc || isDescAux fuel (pm.filter (fun e' => e'.1 != pid)) pp anc

/-- Page `pid` is a strict descendant of page `anc`. -/
def isDescendant (pages : List PageRec) (pid anc : Nat) : Bool :=
  isDescAux (pageParents pages).length (pageParents pages) pid anc

/-- The match predicate of the ancestor-scoped content search
(`space=... AND title=... AND ancestor=...`). -/
def pageMatchA (t s : String) (anc : Nat) (pages : List PageRec) (p : PageRec) : Bool :=
  p.space == s && p.title == t && isDescendant pages p.id anc

/-- The match predicate of the (space, title)-only content search. -/
def pageMatchS (t s : String) (p : PageRec) : Bool :=
  p.space == s && p.title == t

/-- `find_page_by_title_ancestor`: the (space, title, ancestor)-scoped
search; the id of the first result (`results[0]`), if any. -/
def find_page_by_title_ancestor (t s : String) (anc : Nat) (r : Remote) : Option Nat :=
  (r.pages.find? (pageMatchA t s anc r.pages)).map (fun p => p.id)

/-- `find_page_by_title_space`: the (space, title)-only search; the id of
the first result (`results[0]`), if any. -/
def find_page_by_title_space (t s : String) (r : Remote) : Option Nat :=
  (r.pages.find? (pageMatchS t s)).map (fun p => p.id)

/-- `create_page`: POST a new page (with the given ancestor when a parent
id is supplied); the remote assigns the next free id and version 1. -/
def create_page (t s : String) (parent : Option Nat) (content : String) (r : Remote) :
    Nat × Remote :=
  (r.nextId,
   { pages := r.pages ++
       [{ id := r.nextId, title := t, space := s, parent := parent,
          body := content, version := 1 }],
     nextId := r.nextId + 1 })

/-- The effect of the update PUT on the page with the targeted id: its
title, space, body and version are replaced, everything else (id, parent)
is untouched. -/
def updFun (pid : Nat) (t s c : String) (v : Nat) (q : PageRec) : PageRec :=
  if q.id == pid then { q with title := t, space := s, body := c, version := v } else q

/-- `update_page`: GET the page to read its current version (failing when
the id resolves to no page), then PUT the same id, title, space and the new
body with version `current + 1`.  Returns the page id. -/
def update_page (pid : Nat) (t s content : String) (r : Remote) : Option (Nat × Remote) :=
  match r.pages.find? (fun p => p.id == pid) with
  | none => none
  | some p =>
    some (pid, { r with pages := r.pages.map (updFun pid t s content (p.version + 1)) })

/-- The existence lookup of `create_or_overwrite_page`: ancestor-scoped
when a parent id is given, space-only otherwise. -/
def lookupPage (t s : String) (parent : Option Nat) (r : Remote) : Option Nat :=
  match parent with
  | some anc => find_page_by_title_ancestor t s anc r
  | none => find_page_by_title_space t s r

/-- `create_or_overwrite_page`: look the page up — ancestor-scoped when a
parent id is given, space-only otherwise — then update it when found and
create it when not. -/
def create_or_overwrite_page (t s : String) (parent : Option Nat) (content : String)
    (r : Remote) : Option (Nat × Remote) :=
  match lookupPage t s parent r with
  | some eid => update_page eid t s content r
  | none => some (create_page t s parent content r)

/-- The version counter of the page with the given id, if present. -/
def versionOf (r : Remote) (pid : Nat) : Option Nat :=
  (r.pages.find? (fun p => p.id == pid)).map (fun p => p.version)

/-- Parent references stay below the remote's id horizon. -/
def parentOkB (n : Nat) : Option Nat → Bool
  | none => true
  | some q => q < n

/-- Remote well-formedness: page ids are pairwise distinct, and all ids and
parent references lie below `nextId` (the remote assigns fresh ids). -/
def WF (r : Remote) : Prop :=
  (r.pages.map (fun p => p.id)).Nodup ∧
    ∀ p ∈ r.pages, p.id < r.nextId ∧ parentOkB r.nextId p.parent = true

instance (r : Remote) : Decidable (WF r) := by
  unfold WF; infer_instance

/- ### Pruning -/

/-- `list_child_pages`: the remote's direct children listing of a parent
page, as (id, title) pairs in remote order. -/
def list_child_pages (r : Remote) (parentId : Nat) : List (Nat × String) :=
  (r.pages.filter (fun p => p.parent == some parentId)).map (fun p => (p.id, p.title))

/-- `delete_page`: DELETE a page by id. -/
def delete_page (r : Remote) (pid : Nat) : Remote :=
  { r with pages := r.pages.filter (fun p => !(p.id == pid)) }

/-- `prune_stale_pages`: list the children of the parent once, then delete
every child whose title is not in the valid set, recording the ids deleted
in order. -/
def prune_stale_pages (r : Remote) (parentId : Nat) (validTitles : List String) :
    Remote × List Nat :=
  (list_child_pages r parentId).foldl
    (fun acc c =>
      if !(validTitles.contains c.2) then (delete_page acc.1 c.1, acc.2 ++ [c.1])
      else acc)
    (r, [])

/- ### The two-pass orchestrator -/

/-- The orchestrator-level events of `create_or_update_page_with_attachment`,
recorded in execution order: the placeholder upsert returning a page id,
the attachment call returning the attached filename, the final-body
rendering from that filename, and the final update. -/
inductive Ev where
  | upsertPage (pageId : Nat)
  | attach (pageId : Nat) (name : String)
  | renderFinal (name : String)
  | updatePage (pageId : Nat) (body : String)
deriving DecidableEq, Repr

/-- `create_or_update_page_with_attachment`: pass A creates or overwrites
the page with the placeholder body; then the document is attached to the
returned page id; then the final body is rendered from the attached
filename; then the same page id is updated with the final body.  Any
failure aborts the remaining steps. -/
def create_or_update_page_with_attachment (pageTitle : String) (parentId : Option Nat)
    (placeholder filePath : String) (render : String → String) (spaceKey : String)
    (r : Remote) (arem : AttachRemote) : Option (Nat × Remote × List Ev) :=
  match create_or_overwrite_page pageTitle spaceKey parentId placeholder r with
  | none => none
  | some (pageId, r1) =>
    let tr1 := [Ev.upsertPage pageId]
    match (upload_attachment_with_overwrite arem pageId filePath).1 with
    | Except.error _ => none
    | Except.ok attachedName =>
      let tr2 := tr1 ++ [Ev.attach pageId attachedName]
      let finalBody := render attachedName
      let tr3 := tr2 ++ [Ev.renderFinal attachedName]
      match update_page pageId pageTitle spaceKey finalBody r1 with
      | none => none
      | some (updatedId, r2) => some (updatedId, r2, tr3 ++ [Ev.updatePage pageId finalBody])

/- ### Association-list lemmas -/

theorem beqStr_comm (a b : String) : (a == b) = (b == a) := by
  by_cases h : a = b
  · subst h; rfl
  · simp [beq_eq_false_iff_ne.mpr h, beq_eq_false_iff_ne.mpr (Ne.symm h)]

theorem getA_modifyA_self {α : Type} (k : String) (d : α) (f : α → α)
    (l : List (String × α)) :
    getA k (modifyA k d f l) = some (f ((getA k l).getD d)) := by
  induction l with
  | nil => simp [modifyA, getA]
  | cons e rest ih =>
    obtain ⟨k', v'⟩ := e
    cases h : k' == k
    · simp [modifyA, getA, h, ih]
    · simp [modifyA, getA, h]

theorem getA_modifyA_ne {α : Type} (k k' : String) (d : α) (f : α → α)
    (l : List (String × α)) (h : (k' == k) = false) :
    getA k (modifyA k' d f l) = getA k l := by
  induction l with
  | nil => simp [modifyA, getA, beq_eq_false_iff_ne.mp h]
  | cons e rest ih =>
    obtain ⟨k2, v2⟩ := e
    cases h2 : k2 == k'
    · simp [modifyA, getA, h2, ih]
    · have hk : (k2 == k) = false := by rw [eq_of_beq h2]; exact h
      simp [modifyA, getA, h2, hk, beq_eq_false_iff_ne.mp hk]

theorem memA_modifyA_self {α : Type} (k : String) (d : α) (f : α → α)
    (l : List (String × α)) : memA k (modifyA k d f l) = true := by
  simp [memA, getA_modifyA_self]

theorem memA_modifyA_ne {α : Type} (k k' : String) (d : α) (f : α → α)
    (l : List (String × α)) (h : (k' == k) = false) :
    memA k (modifyA k' d f l) = memA k l := by
  simp [memA, getA_modifyA_ne k k' d f l h]

theorem mem_setA {α : Type} {x : String × α} {k : String} {v : α}
    {l : List (String × α)} : x ∈ setA k v l → x = (k, v) ∨ x ∈ l := by
  induction l with
  | nil => intro h; simpa [setA] using h
  | cons e rest ih =>
    obtain ⟨k2, v2⟩ := e
    intro h
    by_cases h2 : (k2 == k) = true
    · simp only [setA, h2, if_true, List.mem_cons] at h
      rcases h with h | h
      · exact Or.inl h
      · exact Or.inr (List.mem_cons_of_mem _ h)
    · simp only [setA, h2, Bool.false_eq_true, if_false, List.mem_cons] at h
      rcases h with h | h
      · exact Or.inr (h ▸ List.mem_cons_self _ _)
      · rcases ih h with h3 | h3
        · exact Or.inl h3
        · exact Or.inr (List.mem_cons_of_mem _ h3)

theorem mem_modifyA {α : Type} {x : String × α} {k : String} {d : α} {f : α → α}
    {l : List (String × α)} : x ∈ modifyA k d f l →
    x ∈ l ∨ ∃ v, x = (k, f v) ∧ ((k, v) ∈ l ∨ v = d) := by
  induction l with
  | nil =>
    intro h
    simp only [modifyA, List.mem_singleton] at h
    exact Or.inr ⟨d, h, Or.inr rfl⟩
  | cons e rest ih =>
    obtain ⟨k2, v2⟩ := e
    intro h
    by_cases h2 : (k2 == k) = true
    · have hk : k2 = k := eq_of_beq h2
      subst hk
      simp only [modifyA, h2, if_true, List.mem_cons] at h
      rcases h with h | h
      · exact Or.inr ⟨v2, h, Or.inl (List.mem_cons_self _ _)⟩
      · exact Or.inl (List.mem_cons_of_mem _ h)
    · simp only [modifyA, h2, Bool.false_eq_true, if_false, List.mem_cons] at h
      rcases h with h | h
      · exact Or.inl (h ▸ List.mem_cons_self _ _)
      · rcases ih h with h3 | ⟨v, hv, hm⟩
        · exact Or.inl (List.mem_cons_of_mem _ h3)
        · refine Or.inr ⟨v, hv, ?_⟩
          rcases hm with hm | hm
          · exact Or.inl (List.mem_cons_of_mem _ hm)
          · exact Or.inr hm

theorem getA_mem {α : Type} {k : String} {v : α} {l : List (String × α)} :
    getA k l = some v → (k, v) ∈ l := by
  induction l with
  | nil => intro h; simp [getA] at h
  | cons e rest ih =>
    obtain ⟨k2, v2⟩ := e
    intro h
    by_cases h2 : (k2 == k) = true
    · have hk : k2 = k := eq_of_beq h2
      subst hk
      simp only [getA, h2, if_true, Option.some_inj] at h
      exact h ▸ List.mem_cons_self _ _
    · simp only [getA, h2, Bool.false_eq_true, if_false] at h
      exact List.mem_cons_of_mem _ (ih h)

/- ### Characterization of the partitioner -/

theorem inPartial_processMethod (docs : GroupDocs) (g pk : String) (mop : String × Op)
    (g' pk' : String) :
    inPartial (processMethod docs g pk mop) g' pk' =
      (inPartial docs g' pk' || (httpMethods.contains mop.1 && g' == g && pk' == pk)) := by
  unfold processMethod
  cases hc : httpMethods.contains mop.1
  · simp
  · simp only [if_true, Bool.true_and]
    cases hg : g' == g
    · have hgg : (g == g') = false := beqStr_comm g g' ▸ hg
      unfold inPartial
      rw [getA_modifyA_ne g' g _ _ _ hgg]
      simp
    · have hg' : g' = g := eq_of_beq hg
      subst hg'
      unfold inPartial
      rw [getA_modifyA_self]
      simp only
      cases hp : pk' == pk
      · have hpp : (pk == pk') = false := beqStr_comm pk pk' ▸ hp
        rw [memA_modifyA_ne pk' pk _ _ _ hpp]
        cases hgd : getA g' docs
        · simp [hgd, memA, getA]
        · simp [hgd]
      · have hp' : pk' = pk := eq_of_beq hp
        subst hp'
        rw [memA_modifyA_self]
        simp

theorem inPartial_processItem (g pk : String) (item : PathItem) (docs : GroupDocs)
    (g' pk' : String) :
    inPartial (item.foldl (fun d mop => processMethod d g pk mop) docs) g' pk' =
      (inPartial docs g' pk' ||
        (item.any (fun mop => httpMethods.contains mop.1) && g' == g && pk' == pk)) := by
  induction item generalizing docs with
  | nil => simp
  | cons mop rest ih =>
    simp only [List.foldl_cons, ih, inPartial_processMethod, List.any_cons]
    cases inPartial docs g' pk' <;> cases httpMethods.contains mop.1 <;>
      cases rest.any (fun mop => httpMethods.contains mop.1) <;>
      cases g' == g <;> cases pk' == pk <;> simp

theorem inPartial_processPath (docs : GroupDocs) (e : String × PathItem) (g pk : String) :
    inPartial (processPath docs e) g pk =
      (inPartial docs g pk || (pk == e.1 && contributes e.1 e.2 g)) := by
  unfold processPath contributes
  cases hm : matchesRoot e.1
  · simp
  · cases hr : (remainderOf e.1).isEmpty
    · rw [if_pos rfl, if_neg (by simp [hr])]
      rw [inPartial_processItem]
      have hflip : (g == firstSegment e.1) = (firstSegment e.1 == g) :=
        beqStr_comm g (firstSegment e.1)
      cases hfs : firstSegment e.1 == g <;>
        cases hpk : pk == e.1 <;>
        cases hany : e.2.any (fun mop => httpMethods.contains mop.1) <;>
        simp [hflip, hfs, hpk, hany, hr]
    · simp [hr]

theorem inPartial_foldl (paths : PathsDict) (docs : GroupDocs) (g pk : String) :
    inPartial (paths.foldl processPath docs) g pk =
      (inPartial docs g pk || paths.any (fun e => pk == e.1 && contributes e.1 e.2 g)) := by
  induction paths generalizing docs with
  | nil => simp
  | cons e rest ih =>
    simp only [List.foldl_cons, ih, inPartial_processPath, List.any_cons]
    cases inPartial docs g pk <;> cases pk == e.1 && contributes e.1 e.2 g <;>
      cases rest.any (fun e => pk == e.1 && contributes e.1 e.2 g) <;> simp

theorem inPartial_split (paths : PathsDict) (g pk : String) :
    inPartial (split_openapi_by_path_segment paths) g pk =
      paths.any (fun e => pk == e.1 && contributes e.1 e.2 g) := by
  unfold split_openapi_by_path_segment
  rw [inPartial_foldl]
  simp [inPartial, getA]

theorem memA_processMethod (docs : GroupDocs) (g pk : String) (mop : String × Op)
    (g' : String) :
    memA g' (processMethod docs g pk mop) =
      (memA g' docs || (httpMethods.contains mop.1 && g' == g)) := by
  unfold processMethod
  cases hc : httpMethods.contains mop.1
  · simp
  · simp only [if_true, Bool.true_and]
    cases hg : g' == g
    · have hgg : (g == g') = false := beqStr_comm g g' ▸ hg
      rw [memA_modifyA_ne g' g _ _ _ hgg]
      simp
    · have hg' : g' = g := eq_of_beq hg
      subst hg'
      rw [memA_modifyA_self]
      simp

theorem memA_processItem (g pk : String) (item : PathItem) (docs : GroupDocs)
    (g' : String) :
    memA g' (item.foldl (fun d mop => processMethod d g pk mop) docs) =
      (memA g' docs ||
        (item.any (fun mop => httpMethods.contains mop.1) && g' == g)) := by
  induction item generalizing docs with
  | nil => simp
  | cons mop rest ih =>
    simp only [List.foldl_cons, ih, memA_processMethod, List.any_cons]
    cases memA g' docs <;> cases httpMethods.contains mop.1 <;>
      cases rest.any (fun mop => httpMethods.contains mop.1) <;>
      cases g' == g <;> simp

theorem memA_processPath (docs : GroupDocs) (e : String × PathItem) (g : String) :
    memA g (processPath docs e) = (memA g docs || contributes e.1 e.2 g) := by
  unfold processPath contributes
  cases hm : matchesRoot e.1
  · simp
  · cases hr : (remainderOf e.1).isEmpty
    · rw [if_pos rfl, if_neg (by simp [hr])]
      rw [memA_processItem]
      have hflip : (g == firstSegment e.1) = (firstSegment e.1 == g) :=
        beqStr_comm g (firstSegment e.1)
      cases hfs : firstSegment e.1 == g <;>
        cases hany : e.2.any (fun mop => httpMethods.contains mop.1) <;>
        simp [hflip, hfs, hany, hr]
    · simp [hr]

theorem memA_foldl (paths : PathsDict) (docs : GroupDocs) (g : String) :
    memA g (paths.foldl processPath docs) =
      (memA g docs || paths.any (fun e => contributes e.1 e.2 g)) := by
  induction paths generalizing docs with
  | nil => simp
  | cons e rest ih =>
    simp only [List.foldl_cons, ih, memA_processPath, List.any_cons]
    cases memA g docs <;> cases contributes e.1 e.2 g <;>
      cases rest.any (fun e => contributes e.1 e.2 g) <;> simp

theorem memA_split (paths : PathsDict) (g : String) :
    memA g (split_openapi_by_path_segment paths) =
      paths.any (fun e => contributes e.1 e.2 g) := by
  unfold split_openapi_by_path_segment
  rw [memA_foldl]
  simp [memA, getA]

/- ### Only HTTP-method keys ever reach a partial document -/

/-- Every method key stored anywhere in the partial documents is from the
fixed HTTP method list. -/
def methodsValid (docs : GroupDocs) : Prop :=
  ∀ gp ∈ docs, ∀ pe ∈ gp.2, ∀ mop ∈ pe.2, httpMethods.contains mop.1 = true

theorem methodsValid_processMethod {docs : GroupDocs} (g pk : String)
    (mop : String × Op) (h : methodsValid docs) :
    methodsValid (processMethod docs g pk mop) := by
  unfold processMethod
  cases hc : httpMethods.contains mop.1
  · simpa using h
  · simp only [if_true]
    intro gp hgp pe hpe mop' hmop'
    rcases mem_modifyA hgp with hgp | ⟨paths, hgpe, hpaths⟩
    · exact h gp hgp pe hpe mop' hmop'
    · subst hgpe
      simp only at hpe
      rcases mem_modifyA hpe with hpe | ⟨item, hpee, hitem⟩
      · rcases hpaths with hpaths | hpaths
        · exact h _ hpaths pe hpe mop' hmop'
        · subst hpaths; simp at hpe
      · subst hpee
        simp only at hmop'
        rcases mem_setA hmop' with hmop' | hmop'
        · subst hmop'; exact hc
        · rcases hitem with hitem | hitem
          · rcases hpaths with hpaths | hpaths
            · exact h _ hpaths _ hitem mop' hmop'
            · subst hpaths; simp at hitem
          · subst hitem; simp at hmop'

theorem methodsValid_processItem {docs : GroupDocs} (g pk : String) (item : PathItem)
    (h : methodsValid docs) :
    methodsValid (item.foldl (fun d mop => processMethod d g pk mop) docs) := by
  induction item generalizing docs with
  | nil => simpa using h
  | cons mop rest ih =>
    simp only [List.foldl_cons]
    exact ih (methodsValid_processMethod g pk mop h)

theorem methodsValid_processPath {docs : GroupDocs} (e : String × PathItem)
    (h : methodsValid docs) : methodsValid (processPath docs e) := by
  unfold processPath
  cases hm : matchesRoot e.1
  · simpa using h
  · cases hr : (remainderOf e.1).isEmpty
    · rw [if_pos rfl, if_neg (by simp [hr])]
      exact methodsValid_processItem _ _ _ h
    · simp only [if_pos rfl, hr, if_true]
      exact h

theorem methodsValid_split (paths : PathsDict) :
    methodsValid (split_openapi_by_path_segment paths) := by
  unfold split_openapi_by_path_segment
  have H : ∀ (ps : PathsDict) (docs : GroupDocs), methodsValid docs →
      methodsValid (ps.foldl processPath docs) := by
    intro ps
    induction ps with
    | nil => intro docs h; simpa using h
    | cons e rest ih =>
      intro docs h
      simp only [List.foldl_cons]
      exact ih _ (methodsValid_processPath e h)
  exact H paths [] (by intro gp hgp; simp at hgp)

theorem opAt_method_valid (paths : PathsDict) (g pk m : String) (op : Op)
    (h : opAt (split_openapi_by_path_segment paths) g pk m = some op) :
    httpMethods.contains m = true := by
  unfold opAt at h
  cases hg : getA g (split_openapi_by_path_segment paths) with
  | none => rw [hg] at h; simp at h
  | some ps =>
    rw [hg] at h
    rw [Option.some_bind] at h
    cases hp : getA pk ps with
    | none => rw [hp] at h; simp at h
    | some item =>
      rw [hp] at h
      rw [Option.some_bind] at h
      exact methodsValid_split paths _ (getA_mem hg) _ (getA_mem hp) _ (getA_mem h)

/- ### Claims about the partitioner -/

/-- Claim C1 counterexample: the path `/api/v3/widgets` starts with the
structural prefix and has a non-empty remainder, yet when its path item
carries no HTTP-method key (here only `parameters`) the partition drops it
entirely — it appears in no partial document, not in exactly one. -/
theorem claim1_counterexample :
    matchesRoot "/api/v3/widgets" = true ∧
    (remainderOf "/api/v3/widgets").isEmpty = false ∧
    split_openapi_by_path_segment [("/api/v3/widgets", [("parameters", 7)])] = [] ∧
    ∀ g : String,
      inPartial (split_openapi_by_path_segment [("/api/v3/widgets", [("parameters", 7)])])
        g "/api/v3/widgets" = false := by
  refine ⟨by decide, by decide, by decide, ?_⟩
  intro g
  have hnm : ([(("parameters" : String), (7 : Op))].any
      (fun mop => httpMethods.contains mop.1)) = false := by decide
  rw [inPartial_split, List.any_eq_false]
  intro e he
  rw [List.mem_singleton] at he
  subst he
  unfold contributes
  rw [hnm]
  simp

/-- Claim C1 (amended): every path whose key starts with `/api/v3`, has a
non-empty stripped remainder, and whose path item carries at least one
HTTP-method key appears in exactly one partial document, namely the one of
the group named by the first remaining segment; and every path whose key
does not start with the prefix appears in no partial document. -/
theorem claim1_partition_coverage (paths : PathsDict) (pk : String) (item : PathItem)
    (hmem : (pk, item) ∈ paths)
    (hroot : matchesRoot pk = true)
    (hrem : (remainderOf pk).isEmpty = false)
    (hmeth : ∃ mop ∈ item, httpMethods.contains mop.1 = true) :
    (inPartial (split_openapi_by_path_segment paths) (firstSegment pk) pk = true ∧
      ∀ g, inPartial (split_openapi_by_path_segment paths) g pk = true →
        g = firstSegment pk) ∧
    ∀ pk' : String, matchesRoot pk' = false →
      ∀ g, inPartial (split_openapi_by_path_segment paths) g pk' = false := by
  refine ⟨⟨?_, ?_⟩, ?_⟩
  · rw [inPartial_split, List.any_eq_true]
    refine ⟨(pk, item), hmem, ?_⟩
    have hany : item.any (fun mop => httpMethods.contains mop.1) = true := by
      rw [List.any_eq_true]; exact hmeth
    show (pk == pk && contributes pk item (firstSegment pk)) = true
    rw [beq_self_eq_true]
    unfold contributes
    rw [hroot, hrem, hany, beq_self_eq_true]
    rfl
  · intro g hg
    rw [inPartial_split, List.any_eq_true] at hg
    obtain ⟨e, he, hpred⟩ := hg
    have h1 : (pk == e.1) = true := by
      cases hq : pk == e.1
      · rw [hq] at hpred; simp at hpred
      · rfl
    have h2 : contributes e.1 e.2 g = true := by
      cases hq : contributes e.1 e.2 g
      · rw [hq] at hpred; simp at hpred
      · rfl
    have he1 : e.1 = pk := (eq_of_beq h1).symm
    rw [he1] at h2
    unfold contributes at h2
    have h3 : (firstSegment pk == g) = true := by
      cases hq : firstSegment pk == g
      · rw [hq] at h2; simp at h2
      · rfl
    exact (eq_of_beq h3).symm
  · intro pk' hpk' g
    rw [inPartial_split]
    rw [List.any_eq_false]
    intro e he
    cases hq : pk' == e.1
    · simp [hq]
    · have he1 : e.1 = pk' := (eq_of_beq hq).symm
      unfold contributes
      rw [he1, hpk']
      simp

/-- Claim C1 witness: a concrete prefix-matching path with a GET method
lands in the partial of its first-segment group. -/
theorem claim1_witness :
    inPartial (split_openapi_by_path_segment [("/api/v3/widgets", [("get", 1)])])
      (firstSegment "/api/v3/widgets") "/api/v3/widgets" = true :=
  (claim1_partition_coverage [("/api/v3/widgets", [("get", 1)])] "/api/v3/widgets"
    [("get", 1)] (by decide) (by decide) (by decide) (by decide)).1.1

/-- Claim C8: a path whose key is exactly the structural prefix (empty
remainder after stripping the prefix and leading slashes) is silently
dropped: splitting a document holding only it produces no group at all,
and in every input it appears in no partial document. -/
theorem claim8_prefix_exact_dropped :
    (∀ item : PathItem,
      split_openapi_by_path_segment [(("/api/v3" : String), item)] = []) ∧
    (∀ (paths : PathsDict) (g : String),
      inPartial (split_openapi_by_path_segment paths) g "/api/v3" = false) := by
  constructor
  · intro item
    rfl
  · intro paths g
    rw [inPartial_split]
    rw [List.any_eq_false]
    intro e he
    cases hq : ("/api/v3" : String) == e.1
    · simp [hq]
    · have he1 : e.1 = "/api/v3" := (eq_of_beq hq).symm
      unfold contributes
      rw [he1]
      have hre : (remainderOf "/api/v3").isEmpty = true := by decide
      rw [hre]
      simp

/-- Claim C9: a prefix-matching path whose path item carries no HTTP-method
key contributes nothing: it appears in no partial document, a group is only
ever created by an entry contributing at least one HTTP-method operation,
and every method key stored in any partial is from the HTTP method list. -/
theorem claim9_methodless_path_dropped (paths : PathsDict) (pk : String)
    (h : ∀ e ∈ paths, e.1 = pk → ∀ mop ∈ e.2, httpMethods.contains mop.1 = false) :
    (∀ g, inPartial (split_openapi_by_path_segment paths) g pk = false) ∧
    (∀ g, memA g (split_openapi_by_path_segment paths) = true →
        ∃ e ∈ paths, contributes e.1 e.2 g = true) ∧
    (∀ g pk' m op, opAt (split_openapi_by_path_segment paths) g pk' m = some op →
        httpMethods.contains m = true) := by
  refine ⟨?_, ?_, ?_⟩
  · intro g
    rw [inPartial_split]
    rw [List.any_eq_false]
    intro e he
    cases hq : pk == e.1
    · simp [hq]
    · have he1 : e.1 = pk := (eq_of_beq hq).symm
      have hall : ∀ mop ∈ e.2, httpMethods.contains mop.1 = false := h e he he1
      have hany : e.2.any (fun mop => httpMethods.contains mop.1) = false := by
        rw [List.any_eq_false]
        intro mop hmop
        rw [hall mop hmop]
        simp
      unfold contributes
      rw [hany]
      simp
  · intro g hg
    rw [memA_split, List.any_eq_true] at hg
    exact hg
  · intro g pk' m op hop
    exact opAt_method_valid paths g pk' m op hop

/-- Claim C9 witness: a concrete parameters-only path appears in no
partial. -/
theorem claim9_witness :
    inPartial (split_openapi_by_path_segment [("/api/v3/widgets", [("parameters", 7)])])
      "widgets" "/api/v3/widgets" = false :=
  (claim9_methodless_path_dropped [("/api/v3/widgets", [("parameters", 7)])]
    "/api/v3/widgets" (by decide)).1 "widgets"

/- ### Claims about the attachment synchronizer -/

/-- Claim C2: when the primary overwrite-mode upload is rejected with the
specific duplicate-filename signature (status 400 and the fixed message in
the body) and the lookup finds the conflicting attachment, `attach` issues
exactly one primary attempt, one lookup by filename, one delete of the
found attachment, and one retry upload without overwrite mode, in that
order; a successful retry returns the basename of the file path, and a
failed retry propagates the retry response with no further requests. -/
theorem claim2_attachment_fallback (pageId : Nat) (filePath : String)
    (rem : AttachRemote) (attId : Nat)
    (hfail : respOk rem.overwriteResp = false)
    (hstatus : rem.overwriteResp.status = 400)
    (hmsg : containsSub rem.overwriteResp.text dupMsg = true)
    (hfind : respOk rem.findResp = true)
    (hres : rem.findResults.head? = some attId)
    (hdel : respOk rem.deleteResp = true) :
    upload_attachment_with_overwrite rem pageId filePath =
      (if respOk rem.plainResp then Except.ok (basename filePath)
       else Except.error rem.plainResp,
       [AttReq.postOverwrite pageId, AttReq.findByName pageId (basename filePath),
        AttReq.deleteAtt attId, AttReq.postPlain pageId]) := by
  unfold upload_attachment_with_overwrite fallback_delete_existing_attachment
    find_attachment_id_by_filename
  rw [hfail, hstatus, hmsg, hfind, hres]
  cases hp : respOk rem.plainResp <;> simp [hp, hdel]

/-- Claim C2 witness: a concrete duplicate-rejecting remote that finds and
deletes attachment 9 and accepts the retry. -/
theorem claim2_witness :
    upload_attachment_with_overwrite
      ⟨⟨400, dupMsg⟩, ⟨200, ""⟩, [9], ⟨204, ""⟩, ⟨200, ""⟩⟩ 5 "dir/f.json" =
      (if respOk (⟨200, ""⟩ : HttpResp) then Except.ok (basename "dir/f.json")
       else Except.error (⟨200, ""⟩ : HttpResp),
       [AttReq.postOverwrite 5, AttReq.findByName 5 (basename "dir/f.json"),
        AttReq.deleteAtt 9, AttReq.postPlain 5]) :=
  claim2_attachment_fallback 5 "dir/f.json"
    ⟨⟨400, dupMsg⟩, ⟨200, ""⟩, [9], ⟨204, ""⟩, ⟨200, ""⟩⟩ 9
    (by decide) (by decide) (by decide) (by decide) (by decide) (by decide)

/-- Claim C3: when the primary attempt fails with anything other than the
specific duplicate-filename signature (not ok, and not both status 400 and
the fixed message), `attach` issues only the single primary request — no
lookup, no delete, no retry — and propagates the primary response. -/
theorem claim3_attachment_nonfallback (pageId : Nat) (filePath : String)
    (rem : AttachRemote)
    (hfail : respOk rem.overwriteResp = false)
    (hnot : (rem.overwriteResp.status == 400 &&
      containsSub rem.overwriteResp.text dupMsg) = false) :
    upload_attachment_with_overwrite rem pageId filePath =
      (Except.error rem.overwriteResp, [AttReq.postOverwrite pageId]) := by
  unfold upload_attachment_with_overwrite
  rw [hfail, hnot]
  simp

/-- Claim C3 witness: an auth-failure response triggers no fallback. -/
theorem claim3_witness :
    upload_attachment_with_overwrite
      ⟨⟨401, "Unauthorized"⟩, ⟨200, ""⟩, [9], ⟨204, ""⟩, ⟨200, ""⟩⟩ 5 "dir/f.json" =
      (Except.error (⟨401, "Unauthorized"⟩ : HttpResp), [AttReq.postOverwrite 5]) :=
  claim3_attachment_nonfallback 5 "dir/f.json"
    ⟨⟨401, "Unauthorized"⟩, ⟨200, ""⟩, [9], ⟨204, ""⟩, ⟨200, ""⟩⟩
    (by decide) (by decide)

/-- Claim C10: in the fallback path, when the lookup finds no attachment
with the filename, no delete request is issued and the retry upload is
still performed; the fallback does not fail merely because the conflicting
attachment cannot be found. -/
theorem claim10_fallback_without_delete (pageId : Nat) (filePath : String)
    (rem : AttachRemote)
    (hfail : respOk rem.overwriteResp = false)
    (hstatus : rem.overwriteResp.status = 400)
    (hmsg : containsSub rem.overwriteResp.text dupMsg = true)
    (hfind : respOk rem.findResp = true)
    (hres : rem.findResults.head? = none) :
    upload_attachment_with_overwrite rem pageId filePath =
      (if respOk rem.plainResp then Except.ok (basename filePath)
       else Except.error rem.plainResp,
       [AttReq.postOverwrite pageId, AttReq.findByName pageId (basename filePath),
        AttReq.postPlain pageId]) := by
  unfold upload_attachment_with_overwrite fallback_delete_existing_attachment
    find_attachment_id_by_filename
  rw [hfail, hstatus, hmsg, hfind, hres]
  cases hp : respOk rem.plainResp <;> simp [hp]

/-- Claim C10 witness: an empty lookup result skips the delete and the
retry still succeeds. -/
theorem claim10_witness :
    upload_attachment_with_overwrite
      ⟨⟨400, dupMsg⟩, ⟨200, ""⟩, [], ⟨204, ""⟩, ⟨200, ""⟩⟩ 5 "dir/f.json" =
      (if respOk (⟨200, ""⟩ : HttpResp) then Except.ok (basename "dir/f.json")
       else Except.error (⟨200, ""⟩ : HttpResp),
       [AttReq.postOverwrite 5, AttReq.findByName 5 (basename "dir/f.json"),
        AttReq.postPlain 5]) :=
  claim10_fallback_without_delete 5 "dir/f.json"
    ⟨⟨400, dupMsg⟩, ⟨200, ""⟩, [], ⟨204, ""⟩, ⟨200, ""⟩⟩
    (by decide) (by decide) (by decide) (by decide) (by decide)

/- ### Pruning lemmas -/

/-- The ids of the listed children whose title is not in the valid set, in
listing order. -/
def staleIds (valid : List String) (cs : List (Nat × String)) : List Nat :=
  (cs.filter (fun c => !(valid.contains c.2))).map (fun c => c.1)

theorem staleIds_cons_stale (valid : List String) (c : Nat × String)
    (rest : List (Nat × String)) (hv : valid.contains c.2 = false) :
    staleIds valid (c :: rest) = c.1 :: staleIds valid rest := by
  simp only [staleIds, List.filter_cons, hv, Bool.not_false, if_true, List.map_cons]

theorem staleIds_cons_valid (valid : List String) (c : Nat × String)
    (rest : List (Nat × String)) (hv : valid.contains c.2 = true) :
    staleIds valid (c :: rest) = staleIds valid rest := by
  simp only [staleIds, List.filter_cons, hv, Bool.not_true, Bool.false_eq_true, if_false]

theorem prune_foldl (valid : List String) (cs : List (Nat × String)) :
    ∀ (r0 : Remote) (acc : List Nat),
      cs.foldl
        (fun acc c =>
          if !(valid.contains c.2) then (delete_page acc.1 c.1, acc.2 ++ [c.1]) else acc)
        (r0, acc) =
      ({ r0 with pages := r0.pages.filter (fun p => !((staleIds valid cs).contains p.id)) },
        acc ++ staleIds valid cs) := by
  induction cs with
  | nil =>
    intro r0 acc
    simp [staleIds]
  | cons c rest ih =>
    intro r0 acc
    cases hv : valid.contains c.2
    · simp only [List.foldl_cons, hv, Bool.not_false, if_true]
      rw [ih]
      rw [staleIds_cons_stale valid c rest hv]
      have hpt : ∀ p : PageRec,
          ((!((staleIds valid rest).contains p.id)) && !(p.id == c.1)) =
          !((c.1 :: staleIds valid rest).contains p.id) := by
        intro p
        rw [List.contains_cons, Bool.not_or]
        cases p.id == c.1 <;> cases (staleIds valid rest).contains p.id <;> rfl
      have hpages : ((delete_page r0 c.1).pages.filter
            (fun p => !((staleIds valid rest).contains p.id))) =
          r0.pages.filter (fun p => !((c.1 :: staleIds valid rest).contains p.id)) := by
        unfold delete_page
        simp only
        rw [List.filter_filter]
        exact List.filter_congr (fun p _ => hpt p)
      unfold delete_page at hpages ⊢
      rw [hpages]
      simp
    · simp only [List.foldl_cons, hv, Bool.not_true, Bool.false_eq_true, if_false]
      rw [ih]
      rw [staleIds_cons_valid valid c rest hv]

/- ### Claim about pruning -/

/-- Claim C5: with pairwise-distinct page ids, pruning issues deletes for
exactly the children of the partials-parent whose title is not in the valid
set (in listing order), and the surviving pages are exactly the non-stale
ones — children with a valid title and pages under other parents are
untouched. -/
theorem claim5_pruning (r : Remote) (parentId : Nat) (valid : List String)
    (hids : (r.pages.map (fun p => p.id)).Nodup) :
    (prune_stale_pages r parentId valid).2 =
      (r.pages.filter
        (fun p => p.parent == some parentId && !(valid.contains p.title))).map
        (fun p => p.id) ∧
    (prune_stale_pages r parentId valid).1.pages =
      r.pages.filter
        (fun p => !(p.parent == some parentId && !(valid.contains p.title))) := by
  have hsl : staleIds valid (list_child_pages r parentId) =
      (r.pages.filter
        (fun p => p.parent == some parentId && !(valid.contains p.title))).map
        (fun p => p.id) := by
    unfold staleIds list_child_pages
    rw [List.filter_map, List.map_map, List.filter_filter]
    have hf : r.pages.filter
          (fun a => ((fun c => !(valid.contains c.2)) ∘ fun p => (p.id, p.title)) a &&
            (a.parent == some parentId)) =
        r.pages.filter
          (fun p => p.parent == some parentId && !(valid.contains p.title)) := by
      apply List.filter_congr
      intro p _
      exact Bool.and_comm _ _
    rw [hf]
    rfl
  constructor
  · unfold prune_stale_pages
    rw [prune_foldl]
    simp only [List.nil_append]
    exact hsl
  · unfold prune_stale_pages
    rw [prune_foldl]
    simp only
    apply List.filter_congr
    intro p hp
    rw [hsl]
    have hcp : (((r.pages.filter
          (fun p => p.parent == some parentId && !(valid.contains p.title))).map
          (fun p => p.id)).contains p.id) =
        (p.parent == some parentId && !(valid.contains p.title)) := by
      cases hpred : (p.parent == some parentId && !(valid.contains p.title))
      · cases hc : ((r.pages.filter
            (fun p => p.parent == some parentId && !(valid.contains p.title))).map
            (fun p => p.id)).contains p.id
        · rfl
        · exfalso
          have hmem := List.elem_iff.mp hc
          obtain ⟨q, hq, hqid⟩ := List.mem_map.mp hmem
          obtain ⟨hqmem, hqpred⟩ := List.mem_filter.mp hq
          have hqp : q = p := List.inj_on_of_nodup_map hids hqmem hp hqid
          rw [hqp] at hqpred
          rw [hqpred] at hpred
          simp at hpred
      · have hqmem : p ∈ r.pages.filter
            (fun p => p.parent == some parentId && !(valid.contains p.title)) :=
          List.mem_filter.mpr ⟨hp, hpred⟩
        have : p.id ∈ (r.pages.filter
            (fun p => p.parent == some parentId && !(valid.contains p.title))).map
            (fun p => p.id) := List.mem_map.mpr ⟨p, hqmem, rfl⟩
        exact List.elem_iff.mpr this
    rw [hcp]

/-- Claim C5 witness: children A, B, C under parent 1 with valid set
{A, C}: exactly B (id 3) is deleted; A, C and an unrelated page elsewhere
survive unchanged. -/
theorem claim5_witness :
    (prune_stale_pages
      ⟨[⟨1, "P", "S", none, "root", 1⟩, ⟨2, "A", "S", some 1, "a", 1⟩,
        ⟨3, "B", "S", some 1, "b", 1⟩, ⟨4, "C", "S", some 1, "c", 1⟩,
        ⟨5, "B", "S", some 9, "x", 1⟩], 10⟩ 1 ["A", "C"]).2 = [3] ∧
    (prune_stale_pages
      ⟨[⟨1, "P", "S", none, "root", 1⟩, ⟨2, "A", "S", some 1, "a", 1⟩,
        ⟨3, "B", "S", some 1, "b", 1⟩, ⟨4, "C", "S", some 1, "c", 1⟩,
        ⟨5, "B", "S", some 9, "x", 1⟩], 10⟩ 1 ["A", "C"]).1.pages =
      [⟨1, "P", "S", none, "root", 1⟩, ⟨2, "A", "S", some 1, "a", 1⟩,
        ⟨4, "C", "S", some 1, "c", 1⟩, ⟨5, "B", "S", some 9, "x", 1⟩] := by
  have h := claim5_pruning
    ⟨[⟨1, "P", "S", none, "root", 1⟩, ⟨2, "A", "S", some 1, "a", 1⟩,
      ⟨3, "B", "S", some 1, "b", 1⟩, ⟨4, "C", "S", some 1, "c", 1⟩,
      ⟨5, "B", "S", some 9, "x", 1⟩], 10⟩ 1 ["A", "C"] (by decide)
  exact ⟨h.1.trans (by decide), h.2.trans (by decide)⟩

/- ### Claim about the two-pass orchestration -/

theorem update_page_id (pid : Nat) (t s c : String) (r : Remote) (x : Nat) (r' : Remote)
    (h : update_page pid t s c r = some (x, r')) : x = pid := by
  unfold update_page at h
  cases hf : r.pages.find? (fun p => p.id == pid) with
  | none => rw [hf] at h; simp at h
  | some p =>
    rw [hf] at h
    simp only [Option.some_inj, Prod.mk.injEq] at h
    exact h.1.symm

/-- Claim C7: whenever the two-pass flow succeeds it has run in the fixed
order upsert, attach, render, update: the attachment call targets exactly
the page id returned by the placeholder upsert, the final body is the
rendering of the filename returned by the attachment call, the final update
targets that same page id, and the event trace is exactly this sequence. -/
theorem claim7_two_pass_order (pageTitle : String) (parentId : Option Nat)
    (placeholder filePath : String) (render : String → String) (spaceKey : String)
    (r : Remote) (arem : AttachRemote) (uid : Nat) (r2 : Remote) (tr : List Ev)
    (h : create_or_update_page_with_attachment pageTitle parentId placeholder filePath
      render spaceKey r arem = some (uid, r2, tr)) :
    ∃ pid r1 name,
      create_or_overwrite_page pageTitle spaceKey parentId placeholder r =
        some (pid, r1) ∧
      (upload_attachment_with_overwrite arem pid filePath).1 = Except.ok name ∧
      uid = pid ∧
      update_page pid pageTitle spaceKey (render name) r1 = some (uid, r2) ∧
      tr = [Ev.upsertPage pid, Ev.attach pid name, Ev.renderFinal name,
        Ev.updatePage pid (render name)] := by
  unfold create_or_update_page_with_attachment at h
  cases hc : create_or_overwrite_page pageTitle spaceKey parentId placeholder r with
  | none => rw [hc] at h; simp at h
  | some pr =>
    obtain ⟨pid, r1⟩ := pr
    rw [hc] at h
    dsimp only at h
    cases ha : (upload_attachment_with_overwrite arem pid filePath).1 with
    | error e => rw [ha] at h; simp at h
    | ok name =>
      rw [ha] at h
      dsimp only at h
      cases hu : update_page pid pageTitle spaceKey (render name) r1 with
      | none => rw [hu] at h; simp at h
      | some ur =>
        obtain ⟨uid', r2'⟩ := ur
        rw [hu] at h
        dsimp only at h
        simp only [Option.some_inj, Prod.mk.injEq] at h
        obtain ⟨h1, h2, h3⟩ := h
        have hid : uid' = pid := update_page_id pid pageTitle spaceKey (render name) r1 uid' r2' hu
        refine ⟨pid, r1, name, rfl, ha, ?_, ?_, ?_⟩
        · rw [← h1]; exact hid
        · rw [← h1, ← h2]; exact hu
        · rw [← h3]; simp

/-- Claim C7 witness: a concrete successful run of the two-pass flow. -/
theorem claim7_witness :
    ∃ pid r1 name,
      create_or_overwrite_page "T" "S" none "ph" ⟨[], 0⟩ = some (pid, r1) ∧
      (upload_attachment_with_overwrite
        ⟨⟨200, ""⟩, ⟨200, ""⟩, [], ⟨204, ""⟩, ⟨200, ""⟩⟩ pid "f.json").1 =
          Except.ok name ∧
      (0 : Nat) = pid ∧
      update_page pid "T" "S" ((fun n => n) name) r1 =
        some (0, ⟨[⟨0, "T", "S", none, "f.json", 2⟩], 1⟩) ∧
      [Ev.upsertPage 0, Ev.attach 0 "f.json", Ev.renderFinal "f.json",
        Ev.updatePage 0 "f.json"] =
        [Ev.upsertPage pid, Ev.attach pid name, Ev.renderFinal name,
          Ev.updatePage pid ((fun n => n) name)] :=
  claim7_two_pass_order "T" none "ph" "f.json" (fun n => n) "S" ⟨[], 0⟩
    ⟨⟨200, ""⟩, ⟨200, ""⟩, [], ⟨204, ""⟩, ⟨200, ""⟩⟩ 0
    ⟨[⟨0, "T", "S", none, "f.json", 2⟩], 1⟩
    [Ev.upsertPage 0, Ev.attach 0 "f.json", Ev.renderFinal "f.json",
      Ev.updatePage 0 "f.json"] (by decide)

/- ### Lemmas about the remote model -/

theorem find?_congr_mem {α : Type} (l : List α) (p q : α → Bool)
    (h : ∀ a ∈ l, p a = q a) : l.find? p = l.find? q := by
  induction l with
  | nil => rfl
  | cons a as ih =>
    simp only [List.find?_cons]
    rw [h a (List.mem_cons_self a as)]
    cases q a
    · exact ih (fun b hb => h b (List.mem_cons_of_mem a hb))
    · rfl

/-- With sufficient fuel (at least the map size) the ancestor test does not
depend on the exact fuel: every recursive step removes at least one entry
from the map. -/
theorem isDescAux_fuel :
    ∀ (fuel fuel' : Nat) (pm : ParentMap) (pid anc : Nat),
      pm.length ≤ fuel → pm.length ≤ fuel' →
      isDescAux fuel pm pid anc = isDescAux fuel' pm pid anc := by
  intro fuel
  induction fuel with
  | zero =>
    intro fuel' pm pid anc h h'
    have hpm : pm = [] := List.length_eq_zero.mp (Nat.le_zero.mp h)
    subst hpm
    cases fuel' with
    | zero => rfl
    | succ n => simp [isDescAux]
  | succ n ih =>
    intro fuel' pm pid anc h h'
    cases fuel' with
    | zero =>
      have hpm : pm = [] := List.length_eq_zero.mp (Nat.le_zero.mp h')
      subst hpm
      simp [isDescAux]
    | succ m =>
      simp only [isDescAux]
      cases hf : pm.find? (fun e => e.1 == pid) with
      | none => rfl
      | some e =>
        dsimp only
        cases he : e.2 with
        | none => rfl
        | some pp =>
          dsimp only
          have hpe : (e.1 == pid) = true := by simpa using List.find?_some hf
          have hmem : e ∈ pm := List.mem_of_find?_eq_some hf
          have hlt : (pm.filter (fun e' => e'.1 != pid)).length < pm.length := by
            apply List.length_filter_lt_length_iff_exists.mpr
            exact ⟨e, hmem, by simp [bne, hpe]⟩
          have h1 : (pm.filter (fun e' => e'.1 != pid)).length ≤ n := by omega
          have h2 : (pm.filter (fun e' => e'.1 != pid)).length ≤ m := by omega
          rw [ih m (pm.filter (fun e' => e'.1 != pid)) pp anc h1 h2]

/-- Appending a fresh entry (an id no existing entry has or points to) does
not change the ancestor test for any other id. -/
theorem isDescAux_append_fresh (x : Nat × Option Nat) :
    ∀ (fuel : Nat) (pm : ParentMap) (pid anc : Nat),
      (∀ e ∈ pm, e.1 ≠ x.1 ∧ e.2 ≠ some x.1) → pid ≠ x.1 →
      isDescAux fuel (pm ++ [x]) pid anc = isDescAux fuel pm pid anc := by
  intro fuel
  induction fuel with
  | zero => intro pm pid anc hprop hpid; rfl
  | succ n ih =>
    intro pm pid anc hprop hpid
    simp only [isDescAux]
    rw [List.find?_append]
    have hx : ([x].find? (fun e => e.1 == pid)) = none := by
      simp [List.find?_cons, beq_eq_false_iff_ne.mpr (Ne.symm hpid)]
    rw [hx]
    cases hf : pm.find? (fun e => e.1 == pid) with
    | none => rfl
    | some e =>
      dsimp only [Option.or]
      cases he : e.2 with
      | none => rfl
      | some pp =>
        dsimp only
        have hmem : e ∈ pm := List.mem_of_find?_eq_some hf
        have hpp : pp ≠ x.1 := by
          intro hc
          exact (hprop e hmem).2 (by rw [he, hc])
        have hfilter : (pm ++ [x]).filter (fun e' => e'.1 != pid) =
            pm.filter (fun e' => e'.1 != pid) ++ [x] := by
          rw [List.filter_append]
          congr 1
          simp [bne, beq_eq_false_iff_ne.mpr (Ne.symm hpid)]
        rw [hfilter]
        rw [ih (pm.filter (fun e' => e'.1 != pid)) pp anc
          (fun e' he' => hprop e' (List.mem_of_mem_filter he')) hpp]

theorem updFun_id (pid : Nat) (t s c : String) (v : Nat) (q : PageRec) :
    (updFun pid t s c v q).id = q.id := by
  unfold updFun
  by_cases h : (q.id == pid) = true <;> simp [h]

theorem updFun_parent (pid : Nat) (t s c : String) (v : Nat) (q : PageRec) :
    (updFun pid t s c v q).parent = q.parent := by
  unfold updFun
  by_cases h : (q.id == pid) = true <;> simp [h]

theorem pageParents_map_updFun (pid : Nat) (t s c : String) (v : Nat)
    (l : List PageRec) :
    pageParents (l.map (updFun pid t s c v)) = pageParents l := by
  unfold pageParents
  rw [List.map_map]
  apply List.map_congr_left
  intro q _
  simp [Function.comp, updFun_id, updFun_parent]

theorem pageParents_append (l : List PageRec) (p : PageRec) :
    pageParents (l ++ [p]) = pageParents l ++ [(p.id, p.parent)] := by
  unfold pageParents
  simp

theorem isDescendant_map_updFun (pid : Nat) (t s c : String) (v : Nat)
    (l : List PageRec) (x anc : Nat) :
    isDescendant (l.map (updFun pid t s c v)) x anc = isDescendant l x anc := by
  unfold isDescendant
  rw [pageParents_map_updFun]

theorem isDescendant_append_fresh (l : List PageRec) (newp : PageRec) (x anc : Nat)
    (hids : ∀ p ∈ l, p.id ≠ newp.id)
    (hpars : ∀ p ∈ l, p.parent ≠ some newp.id)
    (hx : x ≠ newp.id) :
    isDescendant (l ++ [newp]) x anc = isDescendant l x anc := by
  unfold isDescendant
  rw [pageParents_append]
  have hprop : ∀ e ∈ pageParents l, e.1 ≠ (newp.id, newp.parent).1 ∧
      e.2 ≠ some (newp.id, newp.parent).1 := by
    intro e he
    obtain ⟨p, hp, hpe⟩ := List.mem_map.mp he
    subst hpe
    exact ⟨hids p hp, hpars p hp⟩
  rw [isDescAux_append_fresh (newp.id, newp.parent) _ (pageParents l) x anc hprop hx]
  apply isDescAux_fuel
  · simp
  · exact Nat.le_refl _

theorem isDescendant_append_self (l : List PageRec) (newp : PageRec) (anc : Nat)
    (hids : ∀ p ∈ l, p.id ≠ newp.id)
    (hpar : newp.parent = some anc) :
    isDescendant (l ++ [newp]) newp.id anc = true := by
  unfold isDescendant
  rw [pageParents_append]
  have hlen : (pageParents l ++ [(newp.id, newp.parent)]).length =
      (pageParents l).length + 1 := by simp
  rw [hlen]
  simp only [isDescAux]
  rw [List.find?_append]
  have h1 : (pageParents l).find? (fun e => e.1 == newp.id) = none := by
    rw [List.find?_eq_none]
    intro e he
    obtain ⟨p, hp, hpe⟩ := List.mem_map.mp he
    subst hpe
    simp [beq_eq_false_iff_ne.mpr (hids p hp)]
  rw [h1]
  simp [List.find?_cons, hpar]

theorem find?_id_of_nodup (l : List PageRec) (p₀ : PageRec)
    (hnd : (l.map (fun p => p.id)).Nodup) (hmem : p₀ ∈ l) :
    l.find? (fun p => p.id == p₀.id) = some p₀ := by
  induction l with
  | nil => cases hmem
  | cons q rest ih =>
    rw [List.find?_cons]
    simp only [List.map_cons, List.nodup_cons] at hnd
    cases hq : q.id == p₀.id
    · have hmem' : p₀ ∈ rest := by
        rcases List.mem_cons.mp hmem with h | h
        · exfalso
          rw [h] at hq
          simp at hq
        · exact h
      exact ih hnd.2 hmem'
    · have hqp : q = p₀ := by
        rcases List.mem_cons.mp hmem with h | h
        · exact h.symm
        · exfalso
          have hid : q.id = p₀.id := eq_of_beq hq
          have hin : p₀.id ∈ rest.map (fun p => p.id) := List.mem_map.mpr ⟨p₀, h, rfl⟩
          rw [← hid] at hin
          exact hnd.1 hin
      rw [hqp]

theorem wf_ids_ne (r : Remote)
    (hb : ∀ p ∈ r.pages, p.id < r.nextId ∧ parentOkB r.nextId p.parent = true) :
    ∀ p ∈ r.pages, p.id ≠ r.nextId :=
  fun p hp => Nat.ne_of_lt (hb p hp).1

theorem wf_parents_ne (r : Remote)
    (hb : ∀ p ∈ r.pages, p.id < r.nextId ∧ parentOkB r.nextId p.parent = true) :
    ∀ p ∈ r.pages, p.parent ≠ some r.nextId := by
  intro p hp hc
  have h2 := (hb p hp).2
  rw [hc] at h2
  unfold parentOkB at h2
  exact absurd (of_decide_eq_true h2) (lt_irrefl _)

theorem find?_id_append_fresh (l : List PageRec) (newp : PageRec)
    (hids : ∀ p ∈ l, p.id ≠ newp.id) :
    (l ++ [newp]).find? (fun p => p.id == newp.id) = some newp := by
  rw [List.find?_append]
  have h1 : l.find? (fun p => p.id == newp.id) = none := by
    rw [List.find?_eq_none]
    intro p hp
    simp [beq_eq_false_iff_ne.mpr (hids p hp)]
  rw [h1]
  simp [List.find?_cons]

theorem find?_id_map_updFun (eid : Nat) (t s c : String) (v : Nat)
    (l : List PageRec) (x : Nat) :
    (l.map (updFun eid t s c v)).find? (fun p => p.id == x) =
      (l.find? (fun p => p.id == x)).map (updFun eid t s c v) := by
  rw [List.find?_map]
  have hp : ((fun p : PageRec => p.id == x) ∘ updFun eid t s c v) =
      (fun p : PageRec => p.id == x) := by
    funext q
    simp [Function.comp, updFun_id]
  rw [hp]

theorem lookupPage_after_update (t s c : String) (parent : Option Nat) (r : Remote)
    (hnd : (r.pages.map (fun p => p.id)).Nodup) (eid : Nat) (v : Nat)
    (hfound : lookupPage t s parent r = some eid) :
    lookupPage t s parent { r with pages := r.pages.map (updFun eid t s c v) } =
      some eid := by
  cases parent with
  | some anc =>
    unfold lookupPage find_page_by_title_ancestor at hfound ⊢
    obtain ⟨p₀, hp₀, hp₀id⟩ := Option.map_eq_some'.mp hfound
    have hp₀mem : p₀ ∈ r.pages := List.mem_of_find?_eq_some hp₀
    have hp₀match : pageMatchA t s anc r.pages p₀ = true := List.find?_some hp₀
    dsimp only
    rw [List.find?_map]
    have hpt : ∀ q ∈ r.pages,
        pageMatchA t s anc (r.pages.map (updFun eid t s c v)) (updFun eid t s c v q) =
          pageMatchA t s anc r.pages q := by
      intro q hq
      unfold pageMatchA
      rw [updFun_id, isDescendant_map_updFun]
      by_cases hid : (q.id == eid) = true
      · have hqid : q.id = eid := eq_of_beq hid
        have hqp : q = p₀ := by
          apply List.inj_on_of_nodup_map hnd hq hp₀mem
          rw [hqid, hp₀id]
        have hspace : (updFun eid t s c v q).space = s := by
          unfold updFun; rw [if_pos hid]
        have htitle : (updFun eid t s c v q).title = t := by
          unfold updFun; rw [if_pos hid]
        rw [hspace, htitle]
        unfold pageMatchA at hp₀match
        have hp' := hp₀match
        simp only [Bool.and_eq_true] at hp'
        obtain ⟨⟨ha, hb⟩, -⟩ := hp'
        rw [hqp, ha, hb, beq_self_eq_true, beq_self_eq_true]
      · have hfq : updFun eid t s c v q = q := by
          unfold updFun; rw [if_neg hid]
        rw [hfq]
    rw [find?_congr_mem _ _ _ (fun q hq => by
      simpa [Function.comp] using hpt q hq)]
    rw [hp₀]
    simp [updFun_id, hp₀id]
  | none =>
    unfold lookupPage find_page_by_title_space at hfound ⊢
    obtain ⟨p₀, hp₀, hp₀id⟩ := Option.map_eq_some'.mp hfound
    have hp₀mem : p₀ ∈ r.pages := List.mem_of_find?_eq_some hp₀
    have hp₀match : pageMatchS t s p₀ = true := List.find?_some hp₀
    dsimp only
    rw [List.find?_map]
    have hpt : ∀ q ∈ r.pages,
        pageMatchS t s (updFun eid t s c v q) = pageMatchS t s q := by
      intro q hq
      unfold pageMatchS
      by_cases hid : (q.id == eid) = true
      · have hqid : q.id = eid := eq_of_beq hid
        have hqp : q = p₀ := by
          apply List.inj_on_of_nodup_map hnd hq hp₀mem
          rw [hqid, hp₀id]
        have hspace : (updFun eid t s c v q).space = s := by
          unfold updFun; rw [if_pos hid]
        have htitle : (updFun eid t s c v q).title = t := by
          unfold updFun; rw [if_pos hid]
        rw [hspace, htitle]
        unfold pageMatchS at hp₀match
        have hp' := hp₀match
        simp only [Bool.and_eq_true] at hp'
        obtain ⟨ha, hb⟩ := hp'
        rw [hqp, ha, hb, beq_self_eq_true, beq_self_eq_true]
      · have hfq : updFun eid t s c v q = q := by
          unfold updFun; rw [if_neg hid]
        rw [hfq]
    rw [find?_congr_mem _ _ _ (fun q hq => by
      simpa [Function.comp] using hpt q hq)]
    rw [hp₀]
    simp [updFun_id, hp₀id]

theorem lookupPage_after_create (t s c : String) (parent : Option Nat) (r : Remote)
    (hb : ∀ p ∈ r.pages, p.id < r.nextId ∧ parentOkB r.nextId p.parent = true)
    (hnone : lookupPage t s parent r = none) :
    lookupPage t s parent
      ⟨r.pages ++ [⟨r.nextId, t, s, parent, c, 1⟩], r.nextId + 1⟩ =
      some r.nextId := by
  have hids : ∀ p ∈ r.pages, p.id ≠ (⟨r.nextId, t, s, parent, c, 1⟩ : PageRec).id :=
    wf_ids_ne r hb
  have hpars : ∀ p ∈ r.pages,
      p.parent ≠ some (⟨r.nextId, t, s, parent, c, 1⟩ : PageRec).id :=
    wf_parents_ne r hb
  cases parent with
  | some anc =>
    unfold lookupPage find_page_by_title_ancestor at hnone ⊢
    dsimp only at hnone ⊢
    have hfind : r.pages.find? (pageMatchA t s anc r.pages) = none := by
      cases hf : r.pages.find? (pageMatchA t s anc r.pages) with
      | none => rfl
      | some p => rw [hf] at hnone; simp at hnone
    have hall := List.find?_eq_none.mp hfind
    rw [List.find?_append]
    have h1 : r.pages.find?
        (pageMatchA t s anc (r.pages ++ [⟨r.nextId, t, s, some anc, c, 1⟩])) = none := by
      rw [List.find?_eq_none]
      intro p hp
      have hstable : pageMatchA t s anc (r.pages ++ [⟨r.nextId, t, s, some anc, c, 1⟩]) p =
          pageMatchA t s anc r.pages p := by
        unfold pageMatchA
        rw [isDescendant_append_fresh r.pages _ p.id anc hids hpars (hids p hp)]
      rw [hstable]
      exact hall p hp
    rw [h1]
    have h2 : pageMatchA t s anc (r.pages ++ [⟨r.nextId, t, s, some anc, c, 1⟩])
        ⟨r.nextId, t, s, some anc, c, 1⟩ = true := by
      unfold pageMatchA
      rw [isDescendant_append_self r.pages _ anc hids rfl]
      simp
    simp [List.find?_cons, h2]
  | none =>
    unfold lookupPage find_page_by_title_space at hnone ⊢
    dsimp only at hnone ⊢
    have hfind : r.pages.find? (pageMatchS t s) = none := by
      cases hf : r.pages.find? (pageMatchS t s) with
      | none => rfl
      | some p => rw [hf] at hnone; simp at hnone
    rw [List.find?_append, hfind]
    have h2 : pageMatchS t s (⟨r.nextId, t, s, none, c, 1⟩ : PageRec) = true := by
      unfold pageMatchS
      simp
    simp [List.find?_cons, h2]

theorem updFun_version_of_id (pid : Nat) (t s c : String) (v : Nat) (q : PageRec)
    (h : (q.id == pid) = true) : (updFun pid t s c v q).version = v := by
  unfold updFun
  rw [if_pos h]

/-- Claim C4: on a well-formed remote, calling page upsert twice with the
same title, space, parent and body returns the same page identifier both
times, and each call increases that page's version counter by exactly one
(a page created by the first call starts at version 1, counted up from an
absent version read as 0); the version is never decremented, reset or left
unchanged, even though the body is identical. -/
theorem claim4_idempotent_upsert (t s body : String) (parent : Option Nat) (r : Remote)
    (hwf : WF r) (id1 id2 : Nat) (r1 r2 : Remote)
    (h1 : create_or_overwrite_page t s parent body r = some (id1, r1))
    (h2 : create_or_overwrite_page t s parent body r1 = some (id2, r2)) :
    id1 = id2 ∧
    versionOf r1 id1 = some ((versionOf r id1).getD 0 + 1) ∧
    versionOf r2 id1 = some ((versionOf r id1).getD 0 + 2) := by
  obtain ⟨hnd, hb⟩ := hwf
  unfold create_or_overwrite_page at h1 h2
  cases hl : lookupPage t s parent r with
  | some eid =>
    rw [hl] at h1
    dsimp only at h1
    unfold update_page at h1
    cases hfq : r.pages.find? (fun p => p.id == eid) with
    | none => rw [hfq] at h1; simp at h1
    | some q₀ =>
      rw [hfq] at h1
      dsimp only at h1
      simp only [Option.some_inj, Prod.mk.injEq] at h1
      obtain ⟨hid1, hr1⟩ := h1
      have hq₀ : (q₀.id == eid) = true := by simpa using List.find?_some hfq
      rw [← hr1] at h2
      rw [lookupPage_after_update t s body parent r hnd eid (q₀.version + 1) hl] at h2
      dsimp only at h2
      unfold update_page at h2
      dsimp only at h2
      rw [find?_id_map_updFun, hfq] at h2
      simp only [Option.map_some'] at h2
      simp only [Option.some_inj, Prod.mk.injEq] at h2
      obtain ⟨hid2, hr2⟩ := h2
      have hfv : (updFun eid t s body (q₀.version + 1) q₀).version = q₀.version + 1 :=
        updFun_version_of_id eid t s body (q₀.version + 1) q₀ hq₀
      have hfid : ((updFun eid t s body (q₀.version + 1) q₀).id == eid) = true := by
        rw [updFun_id]; exact hq₀
      have hv0 : versionOf r eid = some q₀.version := by
        unfold versionOf
        rw [hfq]
        rfl
      have hv1 : versionOf r1 eid = some (q₀.version + 1) := by
        rw [← hr1]
        unfold versionOf
        dsimp only
        rw [find?_id_map_updFun, hfq]
        simp [hfv]
      have hv2 : versionOf r2 eid = some (q₀.version + 2) := by
        rw [← hr2]
        unfold versionOf
        dsimp only
        rw [find?_id_map_updFun, find?_id_map_updFun, hfq]
        simp only [Option.map_some', Option.map_map, Function.comp]
        rw [updFun_version_of_id _ _ _ _ _ _ hfid]
        rw [hfv]
      refine ⟨by rw [← hid1, ← hid2], ?_, ?_⟩
      · rw [← hid1, hv1, hv0]
        rfl
      · rw [← hid1, hv2, hv0]
        rfl
  | none =>
    rw [hl] at h1
    dsimp only at h1
    unfold create_page at h1
    simp only [Option.some_inj, Prod.mk.injEq] at h1
    obtain ⟨hid1, hr1⟩ := h1
    have hids := wf_ids_ne r hb
    rw [← hr1] at h2
    rw [lookupPage_after_create t s body parent r hb hl] at h2
    dsimp only at h2
    unfold update_page at h2
    dsimp only at h2
    have hfindn : (r.pages ++ [(⟨r.nextId, t, s, parent, body, 1⟩ : PageRec)]).find?
        (fun p => p.id == r.nextId) = some ⟨r.nextId, t, s, parent, body, 1⟩ := by
      exact find?_id_append_fresh r.pages ⟨r.nextId, t, s, parent, body, 1⟩
        (fun p hp => hids p hp)
    rw [hfindn] at h2
    dsimp only at h2
    simp only [Option.some_inj, Prod.mk.injEq] at h2
    obtain ⟨hid2, hr2⟩ := h2
    have hv0 : versionOf r r.nextId = none := by
      unfold versionOf
      have hn : r.pages.find? (fun p => p.id == r.nextId) = none := by
        rw [List.find?_eq_none]
        intro p hp
        simp [beq_eq_false_iff_ne.mpr (hids p hp)]
      rw [hn]
      rfl
    have hv1 : versionOf r1 r.nextId = some 1 := by
      rw [← hr1]
      unfold versionOf
      dsimp only
      rw [hfindn]
      rfl
    have hv2 : versionOf r2 r.nextId = some 2 := by
      rw [← hr2]
      unfold versionOf
      dsimp only
      rw [find?_id_map_updFun, hfindn]
      have hnid : ((⟨r.nextId, t, s, parent, body, 1⟩ : PageRec).id == r.nextId) = true := by
        simp
      simp [updFun_version_of_id _ _ _ _ _ _ hnid]
    refine ⟨by rw [← hid1, ← hid2], ?_, ?_⟩
    · rw [← hid1, hv1, hv0]
      rfl
    · rw [← hid1, hv2, hv0]
      rfl

/-- Claim C4 witness: upserting twice into an empty remote creates the page
(version 1) and then bumps it to version 2, returning id 5 both times. -/
theorem claim4_witness :
    (5 : Nat) = 5 ∧
    versionOf ⟨[⟨5, "T", "S", none, "B", 1⟩], 6⟩ 5 =
      some ((versionOf ⟨[], 5⟩ 5).getD 0 + 1) ∧
    versionOf ⟨[⟨5, "T", "S", none, "B", 2⟩], 6⟩ 5 =
      some ((versionOf ⟨[], 5⟩ 5).getD 0 + 2) :=
  claim4_idempotent_upsert "T" "S" "B" none ⟨[], 5⟩ (by decide) 5 5
    ⟨[⟨5, "T", "S", none, "B", 1⟩], 6⟩ ⟨[⟨5, "T", "S", none, "B", 2⟩], 6⟩
    (by decide) (by decide)

/-- Claim C6: with a parent id the existence lookup is the
(space, title, ancestor)-scoped search and with no parent the
(space, title)-only search; the two are not conflated: when every
same-title, same-space page lives elsewhere in the space (is not a
descendant of the given parent), the space-only search would match one,
yet the scoped upsert still creates a fresh child page. -/
theorem claim6_lookups_not_conflated (t s body : String) (anc : Nat) (r : Remote)
    (helse : ∀ p ∈ r.pages, p.title = t → p.space = s →
      isDescendant r.pages p.id anc = false)
    (hex : ∃ p ∈ r.pages, p.title = t ∧ p.space = s) :
    lookupPage t s (some anc) r = find_page_by_title_ancestor t s anc r ∧
    lookupPage t s none r = find_page_by_title_space t s r ∧
    find_page_by_title_space t s r ≠ none ∧
    create_or_overwrite_page t s (some anc) body r =
      some (r.nextId, ⟨r.pages ++ [⟨r.nextId, t, s, some anc, body, 1⟩],
        r.nextId + 1⟩) := by
  refine ⟨rfl, rfl, ?_, ?_⟩
  · intro hcon
    obtain ⟨p, hp, ht, hs⟩ := hex
    unfold find_page_by_title_space at hcon
    rw [Option.map_eq_none'] at hcon
    have hnm := List.find?_eq_none.mp hcon p hp
    apply hnm
    unfold pageMatchS
    rw [ht, hs]
    simp
  · unfold create_or_overwrite_page
    have hnone : lookupPage t s (some anc) r = none := by
      unfold lookupPage find_page_by_title_ancestor
      dsimp only
      rw [Option.map_eq_none']
      rw [List.find?_eq_none]
      intro p hp
      unfold pageMatchA
      cases h1 : p.space == s
      · simp
      · cases h2 : p.title == t
        · simp [h2]
        · rw [helse p hp (eq_of_beq h2) (eq_of_beq h1)]
          simp
    rw [hnone]
    rfl

/-- Claim C6 witness: a page titled T in space S under a different parent
(and no descendant of parent 5) does not suppress creation of the child. -/
theorem claim6_witness :
    lookupPage "T" "S" (some 5) ⟨[⟨1, "T", "S", some 2, "x", 3⟩], 10⟩ =
      find_page_by_title_ancestor "T" "S" 5 ⟨[⟨1, "T", "S", some 2, "x", 3⟩], 10⟩ ∧
    lookupPage "T" "S" none ⟨[⟨1, "T", "S", some 2, "x", 3⟩], 10⟩ =
      find_page_by_title_space "T" "S" ⟨[⟨1, "T", "S", some 2, "x", 3⟩], 10⟩ ∧
    find_page_by_title_space "T" "S" ⟨[⟨1, "T", "S", some 2, "x", 3⟩], 10⟩ ≠ none ∧
    create_or_overwrite_page "T" "S" (some 5) "B"
      ⟨[⟨1, "T", "S", some 2, "x", 3⟩], 10⟩ =
      some (10, ⟨[⟨1, "T", "S", some 2, "x", 3⟩, ⟨10, "T", "S", some 5, "B", 1⟩], 11⟩) :=
  claim6_lookups_not_conflated "T" "S" "B" 5 ⟨[⟨1, "T", "S", some 2, "x", 3⟩], 10⟩
    (by decide) (by decide)
